import Mathlib

/-!
Verification of the pydna CRISPR/USER cut-site search core
(`src/pydna/crispr.py`, `src/pydna/user.py`).

Python strings are modelled as `List Char`; Python `re` character-class
patterns are modelled by an executable parser (`parseGroups`) and matcher
(`matchesClasses`) over character classes with repeat counts, and the
zero-width-lookahead `finditer` scan of `_cas.compsite` is modelled as a
filterMap over all start offsets.
-/

namespace Pydna

/-- Modelled from the spec: the IUPAC ambiguity table (the external
`Bio.Data.IUPACData.ambiguous_dna_values` collaborator, not part of the
reviewed sources): each symbol maps to the string of concrete nucleotides
it may stand for. -/
def ambiguousTable : List (Char × List Char) :=
  [ ('A', ['A']), ('C', ['C']), ('G', ['G']), ('T', ['T']),
    ('M', ['A', 'C']), ('R', ['A', 'G']), ('W', ['A', 'T']),
    ('S', ['C', 'G']), ('Y', ['C', 'T']), ('K', ['G', 'T']),
    ('V', ['A', 'C', 'G']), ('H', ['A', 'C', 'T']), ('D', ['A', 'G', 'T']),
    ('B', ['C', 'G', 'T']), ('X', ['G', 'A', 'T', 'C']), ('N', ['G', 'A', 'T', 'C'])]

/-- Lookup `ambiguous_dna_values[c]` of an IUPAC symbol, `none` models
Python's `KeyError` for an unresolvable symbol. -/
def ambiguous_dna_values (c : Char) : Option (List Char) :=
  (ambiguousTable.find? (fun p => p.1 = c)).map (fun p => p.2)

/-- Modelled from the spec: the character-level complement used by the
Reverse-Complement Service (`pydna.utils.rc`, an external collaborator):
ambiguity-aware complement, characters without a complement are left
unchanged (Python `str.translate` semantics). -/
def dna_complement (c : Char) : Char :=
  if c = 'A' then 'T' else if c = 'C' then 'G'
  else if c = 'G' then 'C' else if c = 'T' then 'A'
  else if c = 'M' then 'K' else if c = 'R' then 'Y'
  else if c = 'W' then 'W' else if c = 'S' then 'S'
  else if c = 'Y' then 'R' else if c = 'K' then 'M'
  else if c = 'V' then 'B' else if c = 'H' then 'D'
  else if c = 'D' then 'H' else if c = 'B' then 'V'
  else if c = 'X' then 'X' else if c = 'N' then 'N'
  else if c = 'a' then 't' else if c = 'c' then 'g'
  else if c = 'g' then 'c' else if c = 't' then 'a'
  else c

/-- Modelled from the spec: `reverseComplement` — complement each symbol and
reverse the order. -/
def rc (s : List Char) : List Char := (s.map dna_complement).reverse

/-- Python `str.upper` restricted to ASCII letters, as applied to DNA strings. -/
def pyUpper (c : Char) : Char :=
  if 'a' ≤ c ∧ c ≤ 'z' then Char.ofNat (c.toNat - 32) else c

/-- The `\x7b` brace character opening a regex repeat count. -/
def lbrace : Char := Char.ofNat 123

/-- The `\x7d` brace character closing a regex repeat count. -/
def rbrace : Char := Char.ofNat 125

/-- The decimal digit character for `n < 10`. -/
def digitChar (n : Nat) : Char := Char.ofNat (48 + n)

/-- Decimal rendering of a natural number, accumulator style (the fuel
argument makes the recursion structural; `fuel ≥ n` suffices). -/
def natDecAux : Nat → Nat → List Char → List Char
  | 0, _, acc => acc
  | fuel + 1, n, acc =>
    if n = 0 then acc else natDecAux fuel (n / 10) (digitChar (n % 10) :: acc)

/-- Decimal rendering of a natural number, as Python's `str(n)`. -/
def natDec (n : Nat) : List Char := if n = 0 then ['0'] else natDecAux n n []

/-- The `\x7bcount\x7d` suffix emitted by `pam_to_re` when a run is longer
than one (empty for a run of one). -/
def countSuffix (count : Nat) : List Char :=
  if 1 < count then lbrace :: (natDec count ++ [rbrace]) else []

/-- The class text emitted by `pam_to_re` for one resolved symbol: the bare
nucleotide when the expansion is a single character, a bracketed class
otherwise. -/
def classChars (nuc : List Char) : List Char :=
  if nuc.length = 1 then nuc else '[' :: (nuc ++ [']'])

/-- The loop of `pam_to_re` (crispr.py): state is the emitted pattern so
far, the running repeat count and the previously resolved expansion. -/
def pamToReAux : List Char → List Char → Nat → Option (List Char) → Option (List Char)
  | [], acc, count, _ => some (acc ++ countSuffix count)
  | c :: rest, acc, count, last =>
    (ambiguous_dna_values c).bind fun new_nuc =>
      if some new_nuc = last then pamToReAux rest acc (count + 1) last
      else pamToReAux rest (acc ++ countSuffix count ++ classChars new_nuc) 1 (some new_nuc)

/-- Function `pam_to_re` (crispr.py): compile a PAM motif into a run-length-compressed
character-class pattern string; `none` models the `KeyError` raised on a
symbol absent from the ambiguity table. -/
def pam_to_re (pam : List Char) : Option (List Char) := pamToReAux pam [] 1 none

/-! ### A character-class pattern interpreter

The spec speaks of a compiled pattern "expanded as a character-class
pattern".  `parseGroups` reads a pattern string into a list of
(character class, repeat count) groups — exactly the fragment of `re`
syntax the compiler emits — and `matchesClasses` gives it the regex
semantics: a fixed-width position-by-position class match. -/

/-- Consume a maximal run of decimal digits, accumulating their value. -/
def parseDigitsAux : Nat → List Char → Nat × List Char
  | v, [] => (v, [])
  | v, c :: rest =>
    if c.isDigit then parseDigitsAux (v * 10 + (c.toNat - 48)) rest else (v, c :: rest)

/-- After the digits of a repeat count: require the closing brace. -/
def parseCountEnd : Nat × List Char → Option (Nat × List Char)
  | (v, e :: rest3) => if e = rbrace then some (v, rest3) else none
  | (_, []) => none

/-- The inside of a `\x7b...\x7d` repeat suffix: digits then the close. -/
def parseCountBr : List Char → Option (Nat × List Char)
  | [] => none
  | d :: t => if d.isDigit then parseCountEnd (parseDigitsAux 0 (d :: t)) else none

/-- Parse an optional `\x7bcount\x7d` repeat suffix; absence means count 1,
a malformed suffix is a parse error. -/
def parseCount : List Char → Option (Nat × List Char)
  | [] => some (1, [])
  | c :: rest => if c = lbrace then parseCountBr rest else some (1, c :: rest)

/-- Split a bracketed class body at the closing `]`. -/
def takeUntilRB : List Char → Option (List Char × List Char)
  | [] => none
  | c :: rest =>
    if c = ']' then some ([], rest)
    else
      match takeUntilRB rest with
      | some (s, r) => some (c :: s, r)
      | none => none

/-- Parse a pattern string into (class, count) groups; the fuel argument
makes the recursion structural, one unit per group (`fuel ≥ length`
suffices). -/
def parseGroupsF : Nat → List Char → Option (List (List Char × Nat))
  | _, [] => some []
  | fuel + 1, c :: rest =>
    if c = '[' then
      (takeUntilRB rest).bind fun sr =>
        (parseCount sr.2).bind fun kr =>
          (parseGroupsF fuel kr.2).map (fun gs => (sr.1, kr.1) :: gs)
    else if c = ']' ∨ c = lbrace ∨ c = rbrace then none
    else
      (parseCount rest).bind fun kr =>
        (parseGroupsF fuel kr.2).map (fun gs => ([c], kr.1) :: gs)
  | 0, _ :: _ => none

/-- Parse a character-class pattern string. -/
def parseGroups (l : List Char) : Option (List (List Char × Nat)) := parseGroupsF l.length l

/-- Expand the groups into one character class per matched position. -/
def flattenGroups (gs : List (List Char × Nat)) : List (List Char) :=
  (gs.map (fun g => List.replicate g.2 g.1)).flatten

/-- A string matches a list of classes iff it has the same length and each
character belongs to the class at its position. -/
def matchesClasses : List (List Char) → List Char → Bool
  | [], [] => true
  | set :: sets, c :: s => set.contains c && matchesClasses sets s
  | _, _ => false

/-- Group-list acceptance of a whole string. -/
def acceptsGroups (gs : List (List Char × Nat)) (s : List Char) : Bool :=
  matchesClasses (flattenGroups gs) s

/-- Pattern-string acceptance of a whole string (false on parse failure). -/
def acceptsPat (pat s : List Char) : Bool :=
  match parseGroups pat with
  | some gs => acceptsGroups gs s
  | none => false

/-- The fixed width of a group pattern (number of positions it matches). -/
def totalLen (gs : List (List Char × Nat)) : Nat := (gs.map (fun g => g.2)).sum

/-- Zero-width lookahead at offset `i`: the pattern matches the text
starting at `i` (within bounds). -/
def lookAt (gs : List (List Char × Nat)) (s : List Char) (i : Nat) : Bool :=
  acceptsGroups gs ((s.drop i).take (totalLen gs))

/-- Position-by-position acceptance of a motif against a string, resolving
each motif symbol independently through the ambiguity table — the naive
semantics the spec's compiler-correctness invariant refers to. -/
def pointwiseAccepts : List Char → List Char → Bool
  | [], [] => true
  | m :: motif, c :: s =>
    ((ambiguous_dna_values m).getD []).contains c && pointwiseAccepts motif s
  | _, _ => false

/-- The expansion of each motif symbol (default `[]` for invalid symbols;
only used under validity hypotheses). -/
def expandList (l : List Char) : List (List Char) :=
  l.map (fun c => (ambiguous_dna_values c).getD [])

/-! ### The Cas9-class finders (`crispr.py`) -/

/-- Attribute `cas9.pam`, the raw PAM text. -/
def cas9_pam : List Char := "NGG".toList

/-- Attribute `SaCas9.pam`, the raw PAM text. -/
def saCas9_pam : List Char := "NNGRRT".toList

/-- Attribute `cas9.scaffold` (= `SaCas9.scaffold`). -/
def cas9_scaffold : List Char := "GTTTTAGAGCTAGAAATAGCAAGTTAAAATAAGG".toList

/-- The watson branch of `_cas.compsite` as `cas9` inherits it: the raw
protospacer and the raw PAM text are interpolated into the regex, so
ambiguity codes stay literal characters. -/
def cas9_watson (proto : List Char) : List Char := proto.map pyUpper ++ cas9_pam

/-- The crick branch of `_cas.compsite` as `cas9` inherits it. -/
def cas9_crick (proto : List Char) : List Char := rc cas9_pam ++ rc (proto.map pyUpper)

/-- Attribute `SaCas9.pamre = pam_to_re(SaCas9.pam)` (the lookup always succeeds on
`NNGRRT`). -/
def saCas9_pamre : List Char := (pam_to_re saCas9_pam).getD []

/-- Attribute `SaCas9.pamrerc = pam_to_re(rc(SaCas9.pam))`. -/
def saCas9_pamrerc : List Char := (pam_to_re (rc saCas9_pam)).getD []

/-- The watson branch of `SaCas9.compsite`: protospacer followed by the
compiled PAM pattern. -/
def saCas9_watson (proto : List Char) : List Char := proto.map pyUpper ++ saCas9_pamre

/-- The crick branch of `SaCas9.compsite`: compiled pattern of the
reverse-complemented PAM, followed by the reverse-complemented protospacer. -/
def saCas9_crick (proto : List Char) : List Char := saCas9_pamrerc ++ rc (proto.map pyUpper)

/-- The string actually scanned by `cas9.search`/`SaCas9.search`: uppercased,
and for `linear=False` extended by `dna[1:size]` appended at the end. -/
def casScanned (dna : List Char) (size : Nat) (linear : Bool) : List Char :=
  let d := dna.map pyUpper
  if linear then d else d ++ (d.take size).drop 1

/-- The body of `cas9.search`/`SaCas9.search`: one left-to-right scan of
`compsite` (an alternation of two zero-width lookaheads, so every start
offset is tried and at most one group matches per offset, watson first);
watson matches report `start + 1 + fst5`, crick matches report
`start + len(pam) + 1 - fst3`. -/
def casSearch (wPat cPat : List Char) (pamLen size : Nat) (fst5 fst3 : Int)
    (dna : List Char) (linear : Bool) : List Int :=
  let s := casScanned dna size linear
  let wGs := (parseGroups wPat).getD []
  let cGs := (parseGroups cPat).getD []
  (List.range (s.length + 1)).filterMap (fun i =>
    if lookAt wGs s i then some ((i : Int) + 1 + fst5)
    else if lookAt cGs s i then some ((i : Int) + (pamLen : Int) + 1 - fst3)
    else none)

/-- Method `cas9(protospacer).search(dna, linear)` (size 20, fst5 17, fst3 −3). -/
def cas9_search (proto dna : List Char) (linear : Bool) : List Int :=
  casSearch (cas9_watson proto) (cas9_crick proto) cas9_pam.length 20 17 (-3) dna linear

/-- Method `SaCas9(protospacer).search(dna, linear)` (size 21, fst5 17, fst3 −3). -/
def saCas9_search (proto dna : List Char) (linear : Bool) : List Int :=
  casSearch (saCas9_watson proto) (saCas9_crick proto) saCas9_pam.length 21 17 (-3) dna linear

/-! ### Non-overlapping `re.finditer` (used by `USER.search` and
`protospacer`) -/

/-- Non-overlapping scan: try offsets left to right, and after a match of
width `w` resume after its end (`max w 1` mirrors `re`'s empty-match rule).
Fuel `len + 2` suffices since the offset strictly increases. -/
def scanNOP (p : Nat → Bool) (w len : Nat) : Nat → Nat → List Nat
  | 0, _ => []
  | fuel + 1, i =>
    if len < i then []
    else if p i then i :: scanNOP p w len fuel (i + max w 1)
    else scanNOP p w len fuel (i + 1)

/-- Start offsets of the non-overlapping matches of a class pattern. -/
def finditerStarts (gs : List (List Char × Nat)) (s : List Char) : List Nat :=
  scanNOP (fun i => lookAt gs s i) (totalLen gs) s.length (s.length + 2) 0

/-! ### `USER.search` (`user.py`) -/

/-- The fixed watson-strand pattern `[ACGT]\x7b5\x7dU` of the USER enzyme. -/
def userFwdPat : List Char := "[ACGT]\x7b5\x7dU".toList

/-- The reverse-orientation pattern `U[ACGT]\x7b5\x7d` scanned on the crick
strand. -/
def userRevPat : List Char := "U[ACGT]\x7b5\x7d".toList

/-- Parsed groups of the USER forward pattern. -/
def userFwdGs : List (List Char × Nat) := (parseGroups userFwdPat).getD []

/-- Parsed groups of the USER reverse pattern. -/
def userRevGs : List (List Char × Nat) := (parseGroups userRevPat).getD []

/-- Constant `USER.fst5`. -/
def user_fst5 : Int := 7

/-- Constant `USER.size`. -/
def user_size : Nat := 6

/-- Method `USER().search(dna, linear)`: scan `dna.watson` for the forward pattern
reporting `start + fst5`, then `dna.crick` for the reverse pattern
reporting `end + fst5 - 1`; the `linear` flag is accepted but never used
(the circular case is a documented TODO in the source). -/
def user_search (watson crick : List Char) (linear : Bool) : List Int :=
  ((finditerStarts userFwdGs watson).map (fun (i : Nat) => (i : Int) + user_fst5)) ++
    ((finditerStarts userRevGs crick).map
      (fun (i : Nat) => ((i + totalLen userRevGs : Nat) : Int) + user_fst5 - 1))

/-! ### The protospacer extractor (`crispr.py`, function `protospacer`) -/

/-- One candidate match of `(?P<ps>.\x7bsize\x7d)(?:scaffold)` at offset `i`:
`size` arbitrary non-newline characters followed by the literal scaffold. -/
def psMatchW (g : List Char) (size : Nat) (scaf : List Char) (i : Nat) : Bool :=
  decide (i + size + scaf.length ≤ g.length) &&
    ((g.drop i).take size).all (fun c => c ≠ '\n') &&
    decide ((g.drop (i + size)).take scaf.length = scaf)

/-- One candidate match of `(?:rc(scaffold))(?P<ps>.\x7bsize\x7d)` at `i`. -/
def psMatchC (g : List Char) (size : Nat) (rscaf : List Char) (i : Nat) : Bool :=
  decide (i + rscaf.length + size ≤ g.length) &&
    decide ((g.drop i).take rscaf.length = rscaf) &&
    ((g.drop (i + rscaf.length)).take size).all (fun c => c ≠ '\n')

/-- Forward-strand hits of `protospacer`: captured substrings, scan order. -/
def psWatsonHits (g : List Char) (size : Nat) (scaf : List Char) : List (List Char) :=
  (scanNOP (psMatchW g size scaf) (size + scaf.length) g.length (g.length + 2) 0).map
    (fun i => (g.drop i).take size)

/-- Reverse-strand hits of `protospacer`: captured substrings after the
reverse-complemented scaffold, each reverse-complemented, scan order. -/
def psCrickHits (g : List Char) (size : Nat) (scaf : List Char) : List (List Char) :=
  (scanNOP (psMatchC g size (rc scaf)) ((rc scaf).length + size) g.length (g.length + 2) 0).map
    (fun i => rc ((g.drop (i + (rc scaf).length)).take size))

/-- Function `protospacer(guide_construct, cas)`: uppercase the guide, then all
forward-strand scaffold-anchored hits followed by all reverse-strand hits. -/
def protospacer_extract (g : List Char) (size : Nat) (scaf : List Char) : List (List Char) :=
  psWatsonHits (g.map pyUpper) size scaf ++ psCrickHits (g.map pyUpper) size scaf

/-! ### Spec-side reference definitions (from the claims' words, for
comparison with the code model) -/

/-- From the claim: the result list with all watson coordinates first (scan
order) and then all crick coordinates (scan order), each strand scanned
independently. -/
def casSearchStrandGrouped (wPat cPat : List Char) (pamLen size : Nat) (fst5 fst3 : Int)
    (dna : List Char) (linear : Bool) : List Int :=
  let s := casScanned dna size linear
  let wGs := (parseGroups wPat).getD []
  let cGs := (parseGroups cPat).getD []
  ((List.range (s.length + 1)).filterMap (fun i =>
      if lookAt wGs s i then some ((i : Int) + 1 + fst5) else none)) ++
    ((List.range (s.length + 1)).filterMap (fun i =>
      if lookAt cGs s i then some ((i : Int) + (pamLen : Int) + 1 - fst3) else none))

/-- From the claim: a USER search with the coordinate offset `fst5` applied
uniformly to the match start on both strands. -/
def user_search_claimed (watson crick : List Char) (linear : Bool) : List Int :=
  ((finditerStarts userFwdGs watson).map (fun (i : Nat) => (i : Int) + user_fst5)) ++
    ((finditerStarts userRevGs crick).map (fun (i : Nat) => (i : Int) + user_fst5))

/-! ### Auxiliary definitions for the correctness development -/

/-- Character `c` is a concrete uppercase nucleotide. -/
def isBase (c : Char) : Prop := c = 'A' ∨ c = 'C' ∨ c = 'G' ∨ c = 'T'

instance (c : Char) : Decidable (isBase c) := by unfold isBase; infer_instance

/-- A well-formed expansion set: nonempty and made of concrete nucleotides. -/
def nucOk (nuc : List Char) : Prop := nuc ≠ [] ∧ ∀ c ∈ nuc, isBase c

instance (nuc : List Char) : Decidable (nucOk nuc) := by unfold nucOk; infer_instance

/-- The list does not start with an opening repeat brace (so `parseCount`
reads it as "no explicit count"). -/
def headNotLb : List Char → Prop
  | [] => True
  | c :: _ => c ≠ lbrace

/-- The list is empty or starts a new class (a bracket or a bare base). -/
def headClass : List Char → Prop
  | [] => True
  | c :: _ => c = '[' ∨ isBase c

/-- The decimal value accumulated by `parseDigitsAux` after reading the
digits of `n` on top of a previous value `v` (same fuel pattern as
`natDecAux`). -/
def shiftAux : Nat → Nat → Nat → Nat
  | 0, _, v => v
  | fuel + 1, n, v => if n = 0 then v else shiftAux fuel (n / 10) v * 10 + n % 10

/-- Run-length encoding of a list of expansion sets, with an open run of
`x` repeated `k` times — the grouping `pam_to_re` renders. -/
def rleAux (x : List Char) (k : Nat) : List (List Char) → List (List Char × Nat)
  | [] => [(x, k)]
  | y :: rest => if y = x then rleAux x (k + 1) rest else (x, k) :: rleAux y 1 rest

/-- The text `pamToReAux` still has to emit when its state holds an open run
of `nuc` repeated `k` times and the expansions `l` remain. -/
def tailRender (nuc : List Char) (k : Nat) : List (List Char) → List Char
  | [] => countSuffix k
  | y :: rest =>
    if y = nuc then tailRender nuc (k + 1) rest
    else countSuffix k ++ classChars y ++ tailRender y 1 rest

end Pydna

namespace Pydna

/-! ### Decimal rendering/parsing round trip -/

theorem digitChar_isDigit {m : Nat} (h : m < 10) : (digitChar m).isDigit = true := by
  unfold digitChar
  interval_cases m <;> decide

theorem digitChar_val {m : Nat} (h : m < 10) : (digitChar m).toNat - 48 = m := by
  unfold digitChar
  interval_cases m <;> decide

theorem natDecAux_append (fuel : Nat) :
    ∀ n acc, natDecAux fuel n acc = natDecAux fuel n [] ++ acc := by
  induction fuel with
  | zero => intro n acc; simp [natDecAux]
  | succ fuel ih =>
    intro n acc
    by_cases h : n = 0
    · simp [natDecAux, h]
    · rw [natDecAux, if_neg h, natDecAux, if_neg h, ih _ (digitChar (n % 10) :: acc),
        ih _ [digitChar (n % 10)]]
      simp

theorem natDecAux_digits (fuel : Nat) :
    ∀ n acc, (∀ c ∈ acc, c.isDigit = true) → ∀ c ∈ natDecAux fuel n acc, c.isDigit = true := by
  induction fuel with
  | zero => intro n acc hacc; simpa [natDecAux] using hacc
  | succ fuel ih =>
    intro n acc hacc c hc
    by_cases h : n = 0
    · simp [natDecAux, h] at hc; exact hacc c hc
    · rw [natDecAux, if_neg h] at hc
      refine ih _ _ ?_ c hc
      intro d hd
      rcases List.mem_cons.mp hd with h1 | h1
      · subst h1; exact digitChar_isDigit (Nat.mod_lt _ (by norm_num))
      · exact hacc d h1

theorem natDec_digits {k : Nat} : ∀ c ∈ natDec k, c.isDigit = true := by
  intro c hc
  unfold natDec at hc
  by_cases h : k = 0
  · rw [if_pos h] at hc
    simp at hc
    subst hc
    decide
  · rw [if_neg h] at hc
    exact natDecAux_digits k k [] (by simp) c hc

theorem natDec_ne_nil {k : Nat} : natDec k ≠ [] := by
  unfold natDec
  by_cases h : k = 0
  · simp [h]
  · rw [if_neg h]
    obtain ⟨f, hf⟩ : ∃ f, k = f + 1 := ⟨k - 1, by omega⟩
    rw [hf, natDecAux, if_neg (by omega), natDecAux_append]
    simp

theorem shiftAux_self (fuel : Nat) : ∀ n, n ≤ fuel → shiftAux fuel n 0 = n := by
  induction fuel with
  | zero => intro n h; interval_cases n; simp [shiftAux]
  | succ fuel ih =>
    intro n h
    by_cases h0 : n = 0
    · simp [shiftAux, h0]
    · rw [shiftAux, if_neg h0, ih (n / 10) (by omega)]
      omega

theorem parseDigitsAux_natDecAux (fuel : Nat) :
    ∀ n v acc, n ≤ fuel →
      parseDigitsAux v (natDecAux fuel n acc) = parseDigitsAux (shiftAux fuel n v) acc := by
  induction fuel with
  | zero => intro n v acc h; interval_cases n; simp [natDecAux, shiftAux]
  | succ fuel ih =>
    intro n v acc h
    by_cases h0 : n = 0
    · simp [natDecAux, shiftAux, h0]
    · rw [natDecAux, if_neg h0, shiftAux, if_neg h0,
        ih (n / 10) v _ (by omega), parseDigitsAux,
        if_pos (digitChar_isDigit (Nat.mod_lt _ (by norm_num))),
        digitChar_val (Nat.mod_lt _ (by norm_num))]

theorem parseDigitsAux_natDec {k : Nat} (hk : 1 ≤ k) (rest : List Char) :
    parseDigitsAux 0 (natDec k ++ rest) = parseDigitsAux k rest := by
  unfold natDec
  rw [if_neg (by omega)]
  have h := parseDigitsAux_natDecAux k k 0 rest le_rfl
  rw [natDecAux_append k k rest] at h
  rw [h, shiftAux_self k k le_rfl]

/-! ### `parseCount` on a rendered count suffix -/

theorem parseCount_countSuffix {k : Nat} (hk : 1 ≤ k) (rest : List Char) (hrest : headNotLb rest) :
    parseCount (countSuffix k ++ rest) = some (k, rest) := by
  unfold countSuffix
  by_cases h1 : 1 < k
  · rw [if_pos h1]
    obtain ⟨d, t, hdt⟩ : ∃ d t, natDec k = d :: t := by
      cases hnat : natDec k with
      | nil => exact absurd hnat natDec_ne_nil
      | cons d t => exact ⟨d, t, rfl⟩
    have hdig : d.isDigit = true := natDec_digits d (by rw [hdt]; exact List.mem_cons_self _ _)
    have hparse : parseDigitsAux 0 (natDec k ++ (rbrace :: rest)) =
        (k, rbrace :: rest) := by
      rw [parseDigitsAux_natDec hk, parseDigitsAux, if_neg (by decide)]
    simp only [List.cons_append, List.append_assoc, List.singleton_append, List.nil_append]
    rw [hdt] at hparse ⊢
    simp only [List.cons_append] at hparse ⊢
    rw [parseCount, if_pos rfl, parseCountBr, if_pos hdig, hparse, parseCountEnd, if_pos rfl]
  · have hk1 : k = 1 := by omega
    subst hk1
    rw [if_neg h1, List.nil_append]
    cases rest with
    | nil => rfl
    | cons c t =>
      have hc : c ≠ lbrace := hrest
      rw [parseCount, if_neg hc]

/-! ### Character classification facts -/

theorem isBase_facts {c : Char} (h : isBase c) :
    c ≠ '[' ∧ c ≠ ']' ∧ c ≠ lbrace ∧ c ≠ rbrace ∧ c ≠ '\n' ∧ pyUpper c = c := by
  rcases h with h | h | h | h <;> subst h <;> exact ⟨by decide, by decide, by decide, by decide,
    by decide, by decide⟩

theorem isBase_lookup {c : Char} (h : isBase c) : ambiguous_dna_values c = some [c] := by
  rcases h with h | h | h | h <;> subst h <;> decide

theorem lookup_nucOk {c : Char} {nuc : List Char} (h : ambiguous_dna_values c = some nuc) :
    nucOk nuc := by
  unfold ambiguous_dna_values at h
  cases hf : ambiguousTable.find? (fun p => p.1 = c) with
  | none => rw [hf] at h; simp at h
  | some p =>
    rw [hf] at h
    simp at h
    have hmem : p ∈ ambiguousTable := List.mem_of_find?_eq_some hf
    subst h
    simp [ambiguousTable] at hmem
    rcases hmem with h | h | h | h | h | h | h | h | h | h | h | h | h | h | h | h <;>
      rw [h] <;> decide

theorem headClass_headNotLb {l : List Char} (h : headClass l) : headNotLb l := by
  cases l with
  | nil => trivial
  | cons c t =>
    rcases h with h | h
    · subst h
      show ('[' : Char) ≠ lbrace
      decide
    · exact (isBase_facts h).2.2.1

/-! ### `takeUntilRB` -/

theorem takeUntilRB_spec : ∀ (s rest : List Char), ']' ∉ s →
    takeUntilRB (s ++ ']' :: rest) = some (s, rest) := by
  intro s
  induction s with
  | nil => intro rest _; simp [takeUntilRB]
  | cons c t ih =>
    intro rest hnotin
    have hc : c ≠ ']' := fun h => hnotin (h ▸ List.mem_cons_self _ _)
    have ht : ']' ∉ t := fun h => hnotin (List.mem_cons_of_mem _ h)
    rw [List.cons_append, takeUntilRB, if_neg hc, ih rest ht]

/-! ### Length bounds for the parser (for fuel monotonicity) -/

theorem parseDigitsAux_length : ∀ (l : List Char) (v : Nat),
    (parseDigitsAux v l).2.length ≤ l.length := by
  intro l
  induction l with
  | nil => intro v; simp [parseDigitsAux]
  | cons c t ih =>
    intro v
    by_cases h : c.isDigit
    · rw [parseDigitsAux, if_pos h]
      exact le_trans (ih _) (by simp)
    · rw [parseDigitsAux, if_neg h]

theorem parseCount_length {l rest : List Char} {k : Nat} (h : parseCount l = some (k, rest)) :
    rest.length ≤ l.length := by
  cases l with
  | nil => simp [parseCount] at h; simp [h.2]
  | cons c t =>
    rw [parseCount] at h
    by_cases hc : c = lbrace
    · rw [if_pos hc] at h
      cases t with
      | nil => simp [parseCountBr] at h
      | cons d t2 =>
        rw [parseCountBr] at h
        by_cases hd : d.isDigit
        · rw [if_pos hd] at h
          cases hp : parseDigitsAux 0 (d :: t2) with
          | mk v rest2 =>
            rw [hp] at h
            cases rest2 with
            | nil => simp [parseCountEnd] at h
            | cons e rest3 =>
              rw [parseCountEnd] at h
              by_cases he : e = rbrace
              · rw [if_pos he] at h
                simp at h
                have hlen := parseDigitsAux_length (d :: t2) 0
                rw [hp] at hlen
                simp at hlen
                simp [← h.2]
                omega
              · rw [if_neg he] at h; simp at h
        · rw [if_neg hd] at h; simp at h
    · rw [if_neg hc] at h
      simp at h
      simp [← h.2]

theorem takeUntilRB_length : ∀ {l s rest : List Char},
    takeUntilRB l = some (s, rest) → rest.length < l.length ∧ s.length + 1 + rest.length = l.length := by
  intro l
  induction l with
  | nil => intro s rest h; simp [takeUntilRB] at h
  | cons c t ih =>
    intro s rest h
    rw [takeUntilRB] at h
    by_cases hc : c = ']'
    · rw [if_pos hc] at h
      simp at h
      obtain ⟨rfl, rfl⟩ := h
      simp
      omega
    · rw [if_neg hc] at h
      cases ht : takeUntilRB t with
      | none => rw [ht] at h; simp at h
      | some pr =>
        rw [ht] at h
        cases pr with
        | mk s2 r2 =>
          simp at h
          obtain ⟨h1, h2⟩ := ih ht
          obtain ⟨rfl, rfl⟩ := h
          simp
          omega

/-! ### Fuel monotonicity of the pattern parser -/

theorem parseGroupsF_mono : ∀ (fuel1 : Nat) (l : List Char) (fuel2 : Nat),
    l.length ≤ fuel1 → l.length ≤ fuel2 → parseGroupsF fuel1 l = parseGroupsF fuel2 l := by
  intro fuel1
  induction fuel1 with
  | zero =>
    intro l fuel2 h1 _
    have : l = [] := List.eq_nil_of_length_eq_zero (by omega)
    subst this
    cases fuel2 <;> rfl
  | succ fuel ih =>
    intro l fuel2 h1 h2
    cases l with
    | nil => cases fuel2 <;> rfl
    | cons c rest =>
      obtain ⟨f2, rfl⟩ : ∃ f2, fuel2 = f2 + 1 := ⟨fuel2 - 1, by simp at h2; omega⟩
      simp only [List.length_cons] at h1 h2
      rw [parseGroupsF, parseGroupsF]
      by_cases hc : c = '['
      · rw [if_pos hc, if_pos hc]
        cases htk : takeUntilRB rest with
        | none => rfl
        | some pr =>
          cases pr with
          | mk set rest2 =>
            have hl1 := (takeUntilRB_length htk).1
            simp only [Option.some_bind]
            cases hpc : parseCount rest2 with
            | none => rfl
            | some kr =>
              cases kr with
              | mk k rest3 =>
                have hl2 := parseCount_length hpc
                simp only [Option.some_bind]
                rw [ih rest3 f2 (by omega) (by omega)]
      · rw [if_neg hc, if_neg hc]
        by_cases hd : c = ']' ∨ c = lbrace ∨ c = rbrace
        · rw [if_pos hd, if_pos hd]
        · rw [if_neg hd, if_neg hd]
          cases hpc : parseCount rest with
          | none => rfl
          | some kr =>
            cases kr with
            | mk k rest2 =>
              have hl2 := parseCount_length hpc
              simp only [Option.some_bind]
              rw [ih rest2 f2 (by omega) (by omega)]

theorem parseGroups_nil : parseGroups [] = some [] := rfl

/-! ### Parsing one rendered group -/

theorem parseGroupsOne {nuc : List Char} {k : Nat} (rest : List Char)
    (hnuc : nucOk nuc) (hk : 1 ≤ k) (hrest : headClass rest) :
    parseGroups (classChars nuc ++ countSuffix k ++ rest) =
      (parseGroups rest).map (fun gs => (nuc, k) :: gs) := by
  obtain ⟨hne, hbase⟩ := hnuc
  have hcount := parseCount_countSuffix hk rest (headClass_headNotLb hrest)
  unfold classChars
  by_cases hlen : nuc.length = 1
  · obtain ⟨c, rfl⟩ : ∃ c, nuc = [c] := by
      cases nuc with
      | nil => simp at hlen
      | cons c t =>
        cases t with
        | nil => exact ⟨c, rfl⟩
        | cons d t2 => simp at hlen
    have hc : isBase c := hbase c (List.mem_cons_self _ _)
    have hfacts := isBase_facts hc
    rw [if_pos hlen]
    unfold parseGroups
    simp only [List.cons_append, List.nil_append, List.length_cons]
    rw [parseGroupsF, if_neg hfacts.1,
      if_neg (by push_neg; exact ⟨hfacts.2.1, hfacts.2.2.1, hfacts.2.2.2.1⟩), hcount]
    simp only [Option.some_bind]
    rw [parseGroupsF_mono _ rest rest.length (by simp only [List.length_append, List.length_cons]; omega) le_rfl]
  · rw [if_neg hlen]
    unfold parseGroups
    simp only [List.cons_append, List.append_assoc, List.singleton_append, List.nil_append,
      List.length_cons]
    have hnb : ']' ∉ nuc := by
      intro hmem
      exact (isBase_facts (hbase _ hmem)).2.1 rfl
    rw [parseGroupsF, if_pos rfl]
    have htk : takeUntilRB (nuc ++ ']' :: (countSuffix k ++ rest)) = some (nuc, countSuffix k ++ rest) :=
      takeUntilRB_spec nuc (countSuffix k ++ rest) hnb
    rw [htk]
    simp only [Option.some_bind]
    rw [hcount]
    simp only [Option.some_bind]
    rw [parseGroupsF_mono _ rest rest.length (by simp only [List.length_append, List.length_cons]; omega) le_rfl]

/-! ### Parsing a literal (base-character) prefix -/

theorem parseGroups_literal : ∀ (l rest : List Char), (∀ c ∈ l, isBase c) → headClass rest →
    parseGroups (l ++ rest) = (parseGroups rest).map (fun gs => (l.map fun c => ([c], 1)) ++ gs) := by
  intro l
  induction l with
  | nil =>
    intro rest _ _
    simp only [List.nil_append, List.map_nil]
    cases parseGroups rest <;> simp
  | cons c t ih =>
    intro rest hbase hrest
    have hc : isBase c := hbase c (List.mem_cons_self _ _)
    have hnuc1 : nucOk [c] := by
      constructor
      · simp
      · intro d hd
        simp at hd
        subst hd
        exact hc
    have hrest1 : headClass (t ++ rest) := by
      cases t with
      | nil => exact hrest
      | cons d t2 => exact Or.inr (hbase d (by simp))
    have hone := @parseGroupsOne [c] 1 (t ++ rest) hnuc1 le_rfl hrest1
    have hcc : classChars [c] = [c] := by simp [classChars]
    have hcs : countSuffix 1 = [] := by simp [countSuffix]
    rw [hcc, hcs, List.append_nil, List.singleton_append] at hone
    rw [List.cons_append, hone, ih rest (fun d hd => hbase d (List.mem_cons_of_mem _ hd)) hrest]
    cases parseGroups rest <;> simp

/-! ### The compiler renders the run-length encoding of the expansions,
and parsing it back gives exactly those groups -/

theorem headClass_classChars {y : List Char} (hy : nucOk y) (x : List Char) :
    headClass (classChars y ++ x) := by
  unfold classChars
  by_cases hlen : y.length = 1
  · rw [if_pos hlen]
    cases y with
    | nil => simp at hlen
    | cons c t =>
      exact Or.inr (hy.2 c (List.mem_cons_self _ _))
  · rw [if_neg hlen]
    exact Or.inl rfl

theorem pamToReAux_render : ∀ (rest acc : List Char) (k : Nat) (nuc : List Char),
    (∀ c ∈ rest, (ambiguous_dna_values c).isSome) →
    pamToReAux rest acc k (some nuc) = some (acc ++ tailRender nuc k (expandList rest)) := by
  intro rest
  induction rest with
  | nil => intro acc k nuc _; simp [pamToReAux, tailRender, expandList]
  | cons c cs ih =>
    intro acc k nuc hval
    obtain ⟨nuc2, hc⟩ := Option.isSome_iff_exists.mp (hval c (List.mem_cons_self _ _))
    have hvalcs : ∀ d ∈ cs, (ambiguous_dna_values d).isSome :=
      fun d hd => hval d (List.mem_cons_of_mem _ hd)
    have hexp : expandList (c :: cs) = nuc2 :: expandList cs := by simp [expandList, hc]
    rw [pamToReAux, hc, Option.some_bind, hexp, tailRender]
    by_cases heq : nuc2 = nuc
    · rw [if_pos (by rw [heq]), if_pos heq]
      exact ih acc (k + 1) nuc hvalcs
    · rw [if_neg (by simpa using heq), if_neg heq, ih _ 1 nuc2 hvalcs]
      simp [List.append_assoc]

theorem parseGroups_render : ∀ (l : List (List Char)) (nuc : List Char) (k : Nat),
    nucOk nuc → (∀ x ∈ l, nucOk x) → 1 ≤ k →
    parseGroups (classChars nuc ++ tailRender nuc k l) = some (rleAux nuc k l) := by
  intro l
  induction l with
  | nil =>
    intro nuc k hnuc _ hk
    have hone := parseGroupsOne [] hnuc hk trivial
    simp only [List.append_nil] at hone
    rw [tailRender, hone, parseGroups_nil, rleAux]
    rfl
  | cons y l ih =>
    intro nuc k hnuc hl hk
    rw [tailRender, rleAux]
    by_cases hy : y = nuc
    · rw [if_pos hy, if_pos hy]
      exact ih nuc (k + 1) hnuc (fun x hx => hl x (List.mem_cons_of_mem _ hx)) (by omega)
    · rw [if_neg hy, if_neg hy]
      have hyok : nucOk y := hl y (List.mem_cons_self _ _)
      have hone := parseGroupsOne (classChars y ++ tailRender y 1 l) hnuc hk
        (headClass_classChars hyok _)
      rw [ih y 1 hyok (fun x hx => hl x (List.mem_cons_of_mem _ hx)) le_rfl] at hone
      simp only [List.append_assoc] at hone ⊢
      rw [hone]
      rfl

theorem flattenGroups_rleAux : ∀ (l : List (List Char)) (nuc : List Char) (k : Nat),
    flattenGroups (rleAux nuc k l) = List.replicate k nuc ++ l := by
  intro l
  induction l with
  | nil => intro nuc k; simp [rleAux, flattenGroups]
  | cons y l ih =>
    intro nuc k
    rw [rleAux]
    by_cases hy : y = nuc
    · rw [if_pos hy, ih nuc (k + 1)]
      subst hy
      rw [List.replicate_succ']
      simp
    · rw [if_neg hy]
      show flattenGroups ((nuc, k) :: rleAux y 1 l) = _
      simp only [flattenGroups, List.map_cons, List.flatten_cons]
      rw [show (List.map (fun g => List.replicate g.2 g.1) (rleAux y 1 l)).flatten =
        flattenGroups (rleAux y 1 l) from rfl, ih y 1]
      simp

theorem matchesClasses_expand : ∀ (motif s : List Char),
    matchesClasses (expandList motif) s = pointwiseAccepts motif s := by
  intro motif
  induction motif with
  | nil => intro s; cases s <;> rfl
  | cons m motif ih =>
    intro s
    cases s with
    | nil => rfl
    | cons c s =>
      show (((ambiguous_dna_values m).getD []).contains c && matchesClasses (expandList motif) s) = _
      rw [ih s]
      rfl

/-- Core compiler-correctness helper: on a motif whose symbols all resolve,
`pam_to_re` succeeds and the produced pattern, interpreted as a
character-class pattern, accepts exactly the strings the naive
position-by-position IUPAC semantics accepts. -/
theorem pam_to_re_acceptsPat : ∀ (motif : List Char),
    (∀ c ∈ motif, (ambiguous_dna_values c).isSome) →
    ∃ pat, pam_to_re motif = some pat ∧ ∀ s, acceptsPat pat s = pointwiseAccepts motif s := by
  intro motif hval
  cases motif with
  | nil =>
    refine ⟨[], by simp [pam_to_re, pamToReAux, countSuffix], ?_⟩
    intro s
    cases s <;> rfl
  | cons c cs =>
    obtain ⟨nuc, hc⟩ := Option.isSome_iff_exists.mp (hval c (List.mem_cons_self _ _))
    have hvalcs : ∀ d ∈ cs, (ambiguous_dna_values d).isSome :=
      fun d hd => hval d (List.mem_cons_of_mem _ hd)
    have hstep : pam_to_re (c :: cs) = some (classChars nuc ++ tailRender nuc 1 (expandList cs)) := by
      unfold pam_to_re
      rw [pamToReAux, hc, Option.some_bind, if_neg (by simp),
        pamToReAux_render cs _ 1 nuc hvalcs]
      simp [countSuffix]
    have hnuc : nucOk nuc := lookup_nucOk hc
    have hexp : ∀ x ∈ expandList cs, nucOk x := by
      intro x hx
      simp only [expandList, List.mem_map] at hx
      obtain ⟨d, hd, hxd⟩ := hx
      obtain ⟨nd, hnd⟩ := Option.isSome_iff_exists.mp (hvalcs d hd)
      rw [hnd] at hxd
      simp at hxd
      subst hxd
      exact lookup_nucOk hnd
    refine ⟨_, hstep, ?_⟩
    intro s
    unfold acceptsPat
    rw [parseGroups_render (expandList cs) nuc 1 hnuc hexp le_rfl]
    show acceptsGroups (rleAux nuc 1 (expandList cs)) s = _
    unfold acceptsGroups
    rw [flattenGroups_rleAux]
    have hrepl : List.replicate 1 nuc ++ expandList cs = expandList (c :: cs) := by
      simp [expandList, hc]
    rw [hrepl, matchesClasses_expand]

/-- The naive IUPAC semantics, spelt out positionally. -/
theorem pointwiseAccepts_iff : ∀ (motif s : List Char),
    pointwiseAccepts motif s = true ↔
      s.length = motif.length ∧ ∀ (i : Nat) (c mc : Char), s.get? i = some c →
        motif.get? i = some mc → ∃ nuc, ambiguous_dna_values mc = some nuc ∧ c ∈ nuc := by
  intro motif
  induction motif with
  | nil =>
    intro s
    cases s with
    | nil => simp [pointwiseAccepts]
    | cons c s => simp [pointwiseAccepts]
  | cons m motif ih =>
    intro s
    cases s with
    | nil => simp [pointwiseAccepts]
    | cons c s =>
      show (((ambiguous_dna_values m).getD []).contains c && pointwiseAccepts motif s) = true ↔ _
      rw [Bool.and_eq_true, ih s]
      constructor
      · rintro ⟨h1, h2, h3⟩
        refine ⟨by simp [h2], ?_⟩
        intro i cc mcc hs hm
        cases i with
        | zero =>
          rw [List.get?_cons_zero] at hs hm
          injection hs with hs
          injection hm with hm
          rw [← hs, ← hm]
          cases hl : ambiguous_dna_values m with
          | none => rw [hl] at h1; simp at h1
          | some nuc =>
            rw [hl] at h1
            simp at h1
            exact ⟨nuc, rfl, h1⟩
        | succ i => exact h3 i cc mcc (by simpa using hs) (by simpa using hm)
      · rintro ⟨hlen, hall⟩
        refine ⟨?_, by simpa using hlen, ?_⟩
        · obtain ⟨nuc, hnuc, hmem⟩ := hall 0 c m (by simp) (by simp)
          rw [hnuc]
          simpa using hmem
        · intro i cc mcc hs hm
          exact hall (i + 1) cc mcc (by simpa using hs) (by simpa using hm)

/-! ### Search-side helper lemmas -/

theorem mapUpper_base {l : List Char} (h : ∀ c ∈ l, isBase c) : l.map pyUpper = l := by
  induction l with
  | nil => rfl
  | cons c t ih =>
    rw [List.map_cons, (isBase_facts (h c (List.mem_cons_self _ _))).2.2.2.2.2,
      ih (fun d hd => h d (List.mem_cons_of_mem _ hd))]

/-- Membership characterization of the Cas9-class search result list. -/
theorem casSearch_mem_iff (wPat cPat : List Char) (pamLen size : Nat) (fst5 fst3 : Int)
    (dna : List Char) (linear : Bool) (x : Int) :
    x ∈ casSearch wPat cPat pamLen size fst5 fst3 dna linear ↔
      ∃ i, i ≤ (casScanned dna size linear).length ∧
        ((lookAt ((parseGroups wPat).getD []) (casScanned dna size linear) i = true ∧
            x = (i : Int) + 1 + fst5) ∨
          (lookAt ((parseGroups wPat).getD []) (casScanned dna size linear) i = false ∧
            lookAt ((parseGroups cPat).getD []) (casScanned dna size linear) i = true ∧
            x = (i : Int) + (pamLen : Int) + 1 - fst3)) := by
  unfold casSearch
  rw [List.mem_filterMap]
  constructor
  · rintro ⟨i, hi, hx⟩
    rw [List.mem_range] at hi
    refine ⟨i, by omega, ?_⟩
    by_cases hw : lookAt ((parseGroups wPat).getD []) (casScanned dna size linear) i
    · rw [if_pos hw] at hx
      exact Or.inl ⟨hw, by injection hx with hx; exact hx.symm⟩
    · rw [if_neg hw] at hx
      by_cases hc : lookAt ((parseGroups cPat).getD []) (casScanned dna size linear) i
      · rw [if_pos hc] at hx
        exact Or.inr ⟨by simpa using hw, hc, by injection hx with hx; exact hx.symm⟩
      · rw [if_neg hc] at hx
        simp at hx
  · rintro ⟨i, hi, h | h⟩
    · exact ⟨i, List.mem_range.mpr (by omega), by rw [if_pos h.1, h.2]⟩
    · refine ⟨i, List.mem_range.mpr (by omega), ?_⟩
      rw [if_neg (by simp [h.1]), if_pos h.2.1, h.2.2]

/-- A filterMap of a two-way conditional is a filter-then-map: the single
scan emits, at each matching offset, the watson coordinate if the forward
pattern matches there and otherwise the crick coordinate. -/
theorem filterMap_two_way (pw pc : Nat → Bool) (f g : Nat → Int) (l : List Nat) :
    l.filterMap (fun i => if pw i then some (f i) else if pc i then some (g i) else none) =
      (l.filter (fun i => pw i || pc i)).map (fun i => if pw i then f i else g i) := by
  induction l with
  | nil => rfl
  | cons a l ih =>
    rw [List.filterMap_cons, List.filter_cons]
    by_cases hw : pw a
    · rw [if_pos hw]
      simp only [hw, Bool.true_or, if_true, List.map_cons, ih]
    · rw [if_neg hw]
      by_cases hc : pc a
      · simp only [hw, hc, Bool.false_or, if_true, if_false, List.map_cons, ih]
        simp [hw]
      · simp only [hw, hc, Bool.false_or, if_false, ih]
        simp

theorem scanNOP_stop (p : Nat → Bool) (w len : Nat) :
    ∀ (fuel i : Nat), (∀ j, i ≤ j → p j = false) → scanNOP p w len fuel i = [] := by
  intro fuel
  induction fuel with
  | zero => intro i _; rfl
  | succ fuel ih =>
    intro i h
    rw [scanNOP]
    by_cases hlen : len < i
    · rw [if_pos hlen]
    · rw [if_neg hlen, h i le_rfl]
      simp only [Bool.false_eq_true, if_false]
      exact ih (i + 1) (fun j hj => h j (by omega))

theorem scanNOP_only_first (p : Nat → Bool) (w len fuel : Nat)
    (h0 : p 0 = true) (hrest : ∀ j, 1 ≤ j → p j = false) (hfuel : 1 ≤ fuel) :
    scanNOP p w len fuel 0 = [0] := by
  obtain ⟨f, rfl⟩ : ∃ f, fuel = f + 1 := ⟨fuel - 1, by omega⟩
  rw [scanNOP, if_neg (by omega), h0]
  simp only [if_true]
  rw [scanNOP_stop p w len f _ (fun j hj => hrest j (by omega))]

end Pydna

namespace Pydna

/-! ### Remaining helper lemmas for the claims -/

theorem flattenGroups_append (a b : List (List Char × Nat)) :
    flattenGroups (a ++ b) = flattenGroups a ++ flattenGroups b := by
  simp [flattenGroups]

theorem flattenGroups_lit (l : List Char) :
    flattenGroups (l.map (fun c => ([c], 1))) = l.map (fun c => [c]) := by
  induction l with
  | nil => rfl
  | cons c t ih => simp [flattenGroups, List.map_cons] at ih ⊢; exact ih

theorem expandList_base {l : List Char} (h : ∀ c ∈ l, isBase c) :
    expandList l = l.map (fun c => [c]) := by
  induction l with
  | nil => rfl
  | cons c t ih =>
    simp only [expandList, List.map_cons] at ih ⊢
    rw [isBase_lookup (h c (List.mem_cons_self _ _)),
      ih (fun d hd => h d (List.mem_cons_of_mem _ hd))]
    rfl

theorem expandList_append (a b : List Char) :
    expandList (a ++ b) = expandList a ++ expandList b := by
  simp [expandList]

/-! ### The claims -/

/-- C1 counterexample: the claim fails for the `cas9` variant.  With the
concrete protospacer `ACGTACGTACGTACGTACGT`, the forward pattern `cas9`
precomputes (raw protospacer followed by the raw PAM text `NGG`) is not the
compiled character-class pattern of protospacer+PAM, and the two differ
semantically: the raw pattern rejects the target `...AGG` that the compiled
pattern accepts, because its `N` is a literal character rather than a
character class. -/
theorem C1_counterexample :
    cas9_watson ("ACGTACGTACGTACGTACGT".toList) ≠
      (pam_to_re ("ACGTACGTACGTACGTACGT".toList ++ cas9_pam)).getD [] ∧
    acceptsPat (cas9_watson ("ACGTACGTACGTACGTACGT".toList))
      ("ACGTACGTACGTACGTACGTAGG".toList) = false ∧
    acceptsPat ((pam_to_re ("ACGTACGTACGTACGTACGT".toList ++ cas9_pam)).getD [])
      ("ACGTACGTACGTACGTACGTAGG".toList) = true :=
  ⟨by decide, by decide, by decide⟩

/-- C1 amended: for the `SaCas9` variant the claim holds — the forward
pattern (protospacer followed by the compiled PAM pattern) accepts exactly
the strings the compiled pattern of (protospacer + PAM motif) accepts, and
the reverse pattern is the compiled pattern of the reverse-complemented PAM
followed by the reverse-complemented protospacer.  For `cas9` (base `_cas`)
the raw motif text is interpolated, so ambiguity codes stay literal. -/
theorem C1_sacas9_compiled (proto s : List Char) (hbase : ∀ c ∈ proto, isBase c) :
    acceptsPat (saCas9_watson proto) s =
      acceptsPat ((pam_to_re (proto ++ saCas9_pam)).getD []) s ∧
    saCas9_crick proto = (pam_to_re (rc saCas9_pam)).getD [] ++ rc proto := by
  constructor
  · have hup : proto.map pyUpper = proto := mapUpper_base hbase
    have hvalid : ∀ c ∈ proto ++ saCas9_pam, (ambiguous_dna_values c).isSome := by
      intro c hc
      rcases List.mem_append.mp hc with h | h
      · rw [isBase_lookup (hbase c h)]; rfl
      · clear hc
        revert h
        revert c
        decide
    obtain ⟨pat, hpat, hacc⟩ := pam_to_re_acceptsPat (proto ++ saCas9_pam) hvalid
    rw [hpat]
    simp only [Option.getD_some]
    rw [hacc s]
    unfold saCas9_watson
    rw [hup]
    have hpamre : saCas9_pamre = "[GATC]\x7b2\x7dG[AG]\x7b2\x7dT".toList := by decide
    rw [hpamre]
    have hlit := parseGroups_literal proto ("[GATC]\x7b2\x7dG[AG]\x7b2\x7dT".toList) hbase
      (Or.inl rfl)
    unfold acceptsPat
    rw [hlit]
    have hPG : parseGroups ("[GATC]\x7b2\x7dG[AG]\x7b2\x7dT".toList) =
        some [(['G', 'A', 'T', 'C'], 2), (['G'], 1), (['A', 'G'], 2), (['T'], 1)] := by decide
    rw [hPG]
    simp only [Option.map_some']
    unfold acceptsGroups
    rw [flattenGroups_append, flattenGroups_lit]
    have hPGflat : flattenGroups [(['G', 'A', 'T', 'C'], 2), (['G'], 1), (['A', 'G'], 2),
        (['T'], 1)] = expandList saCas9_pam := by decide
    rw [hPGflat, ← expandList_base hbase, ← expandList_append, matchesClasses_expand]
  · unfold saCas9_crick saCas9_pamrerc
    rw [mapUpper_base hbase]

/-- Witness for C1's amended theorem at a concrete protospacer and target. -/
theorem C1_sacas9_compiled_witness :
    (∀ c ∈ ("ACGT".toList), isBase c) ∧
      (acceptsPat (saCas9_watson ("ACGT".toList)) ("ACGTATGGGT".toList) =
        acceptsPat ((pam_to_re ("ACGT".toList ++ saCas9_pam)).getD [])
          ("ACGTATGGGT".toList) ∧
      saCas9_crick ("ACGT".toList) =
        (pam_to_re (rc saCas9_pam)).getD [] ++ rc ("ACGT".toList)) :=
  ⟨by decide, C1_sacas9_compiled ("ACGT".toList) ("ACGTATGGGT".toList) (by decide)⟩

/-- C2 counterexample: the motif compiler does not return the literal
strings fixed by the spec — `pam_to_re("NGG")` is not `"[ATGC]GG"` (and the
`NNGRRT` example's class is `[GATC]`, not `[ATGC]`). -/
theorem C2_counterexample :
    ¬ (pam_to_re ("NGG".toList) = some ("[ATGC]GG".toList) ∧
       pam_to_re ("NNGRRT".toList) = some ("[ATGC]\x7b2\x7dG[AG]\x7b2\x7dT".toList)) := by
  decide

/-- C2 amended: the literal pattern strings the compiler actually returns
(as pinned by the repository's own tests): `pam_to_re("NGG") =
"[GATC]G\x7b2\x7d"` and `pam_to_re("NNGRRT") = "[GATC]\x7b2\x7dG[AG]\x7b2\x7dT"`. -/
theorem C2_compile_literals :
    pam_to_re ("NGG".toList) = some ("[GATC]G\x7b2\x7d".toList) ∧
    pam_to_re ("NNGRRT".toList) = some ("[GATC]\x7b2\x7dG[AG]\x7b2\x7dT".toList) := by
  decide

/-- C3: for every motif whose symbols all resolve through the IUPAC
ambiguity table, compilation succeeds and the produced pattern, interpreted
as a character-class pattern, accepts a string iff the string has the
motif's length and each character belongs to the expansion set of the motif
symbol at the same position. -/
theorem C3_compiler_correct (motif s : List Char)
    (hval : ∀ c ∈ motif, (ambiguous_dna_values c).isSome) :
    ∃ pat, pam_to_re motif = some pat ∧
      (acceptsPat pat s = true ↔
        s.length = motif.length ∧ ∀ (i : Nat) (c mc : Char), s.get? i = some c →
          motif.get? i = some mc → ∃ nuc, ambiguous_dna_values mc = some nuc ∧ c ∈ nuc) := by
  obtain ⟨pat, hpat, hacc⟩ := pam_to_re_acceptsPat motif hval
  exact ⟨pat, hpat, by rw [hacc s]; exact pointwiseAccepts_iff motif s⟩

/-- Witness for C3 at the motif `NGG` and the candidate string `TGG`. -/
theorem C3_compiler_correct_witness :
    (∀ c ∈ ("NGG".toList), (ambiguous_dna_values c).isSome) ∧
      ∃ pat, pam_to_re ("NGG".toList) = some pat ∧
        (acceptsPat pat ("TGG".toList) = true ↔
          ("TGG".toList).length = ("NGG".toList).length ∧
            ∀ (i : Nat) (c mc : Char), ("TGG".toList).get? i = some c →
              ("NGG".toList).get? i = some mc →
              ∃ nuc, ambiguous_dna_values mc = some nuc ∧ c ∈ nuc) :=
  ⟨by decide, C3_compiler_correct ("NGG".toList) ("TGG".toList) (by decide)⟩

/-- C4: the code appends `dna[1:size]` (characters 1..size−1, skipping the
first character) instead of a full site-length prefix, so a genuine SaCas9
site spanning the origin of a circular sequence is NOT detected with
`linear=False` (the search returns `[]`), although the same site is found
(`[18]`) when the sequence is rotated to make it contiguous; the appended
slice also differs from the claim's "first (size − 1) characters". -/
theorem C4_circular_missed :
    saCas9_search ("ACCTGAGTCAAGGTTACAGTC".toList)
      ("AGGTTACAGTCGTGAGTTTTACCTGAGTCA".toList) false = [] ∧
    saCas9_search ("ACCTGAGTCAAGGTTACAGTC".toList)
      ("AGGTTACAGTCGTGAGTTTTACCTGAGTCA".toList) true = [] ∧
    saCas9_search ("ACCTGAGTCAAGGTTACAGTC".toList)
      ("ACCTGAGTCAAGGTTACAGTCGTGAGTTTT".toList) true = [18] ∧
    casScanned ("AGGTTACAGTCGTGAGTTTTACCTGAGTCA".toList) 21 false ≠
      ("AGGTTACAGTCGTGAGTTTTACCTGAGTCA".toList) ++
        ("AGGTTACAGTCGTGAGTTTTACCTGAGTCA".toList).take 20 :=
  ⟨by decide, by decide, by decide, by decide⟩

/-- C5: a coordinate is in a Cas9-class search result iff it comes from an
offset of the scanned string where either the forward pattern matches
(contributing `start + 1 + fst5`) or the forward pattern fails and the
reverse pattern matches (contributing `start + len(pam) + 1 - fst3`); the
watson-first alternation means a crick group is only set where the watson
lookahead fails. -/
theorem C5_coordinates (wPat cPat : List Char) (pamLen size : Nat) (fst5 fst3 : Int)
    (dna : List Char) (linear : Bool) (x : Int) :
    x ∈ casSearch wPat cPat pamLen size fst5 fst3 dna linear ↔
      ∃ i, i ≤ (casScanned dna size linear).length ∧
        ((lookAt ((parseGroups wPat).getD []) (casScanned dna size linear) i = true ∧
            x = (i : Int) + 1 + fst5) ∨
          (lookAt ((parseGroups wPat).getD []) (casScanned dna size linear) i = false ∧
            lookAt ((parseGroups cPat).getD []) (casScanned dna size linear) i = true ∧
            x = (i : Int) + (pamLen : Int) + 1 - fst3)) :=
  casSearch_mem_iff wPat cPat pamLen size fst5 fst3 dna linear x

/-- C6: the zero-width lookahead scan tries every start offset, so two
forward-pattern occurrences closer together than the protospacer+PAM length
are both reported. -/
theorem C6_overlap (wPat cPat : List Char) (pamLen size : Nat) (fst5 fst3 : Int)
    (dna : List Char) (linear : Bool) (i1 i2 : Nat)
    (h12 : i1 < i2) (h2 : i2 ≤ (casScanned dna size linear).length)
    (hclose : i2 - i1 < size + pamLen)
    (hw1 : lookAt ((parseGroups wPat).getD []) (casScanned dna size linear) i1 = true)
    (hw2 : lookAt ((parseGroups wPat).getD []) (casScanned dna size linear) i2 = true) :
    ((i1 : Int) + 1 + fst5) ∈ casSearch wPat cPat pamLen size fst5 fst3 dna linear ∧
      ((i2 : Int) + 1 + fst5) ∈ casSearch wPat cPat pamLen size fst5 fst3 dna linear :=
  ⟨(casSearch_mem_iff wPat cPat pamLen size fst5 fst3 dna linear _).mpr
      ⟨i1, by omega, Or.inl ⟨hw1, rfl⟩⟩,
    (casSearch_mem_iff wPat cPat pamLen size fst5 fst3 dna linear _).mpr
      ⟨i2, h2, Or.inl ⟨hw2, rfl⟩⟩⟩

/-- Witness for C6: a SaCas9 search with overlapping forward sites at
offsets 0 and 4 (distance 4 < 27) reports both coordinates. -/
theorem C6_overlap_witness :
    ((0 : Nat) < 4 ∧
      (4 : Nat) ≤ (casScanned ("AACGAACGAACGAACGAACGAACGAATGAGT".toList) 21 true).length ∧
      4 - 0 < 21 + saCas9_pam.length ∧
      lookAt ((parseGroups (saCas9_watson ("AACGAACGAACGAACGAACGA".toList))).getD [])
        (casScanned ("AACGAACGAACGAACGAACGAACGAATGAGT".toList) 21 true) 0 = true ∧
      lookAt ((parseGroups (saCas9_watson ("AACGAACGAACGAACGAACGA".toList))).getD [])
        (casScanned ("AACGAACGAACGAACGAACGAACGAATGAGT".toList) 21 true) 4 = true) ∧
    (((0 : Int) + 1 + 17) ∈
        casSearch (saCas9_watson ("AACGAACGAACGAACGAACGA".toList))
          (saCas9_crick ("AACGAACGAACGAACGAACGA".toList)) saCas9_pam.length 21 17 (-3)
          ("AACGAACGAACGAACGAACGAACGAATGAGT".toList) true ∧
      ((4 : Int) + 1 + 17) ∈
        casSearch (saCas9_watson ("AACGAACGAACGAACGAACGA".toList))
          (saCas9_crick ("AACGAACGAACGAACGAACGA".toList)) saCas9_pam.length 21 17 (-3)
          ("AACGAACGAACGAACGAACGAACGAATGAGT".toList) true) :=
  ⟨⟨by decide, by decide, by decide, by decide, by decide⟩,
    C6_overlap (saCas9_watson ("AACGAACGAACGAACGAACGA".toList))
      (saCas9_crick ("AACGAACGAACGAACGAACGA".toList)) saCas9_pam.length 21 17 (-3)
      ("AACGAACGAACGAACGAACGAACGAATGAGT".toList) true 0 4
      (by decide) (by decide) (by decide) (by decide) (by decide)⟩

/-- C7 counterexample: on a sequence with a crick site before a watson site,
the search returns the crick coordinate first — the result list is ordered
by match position in a single scan, not grouped watson-first. -/
theorem C7_counterexample :
    saCas9_search ("ACGTACGTACGTACGTACGTA".toList)
      ("ACTCAATACGTACGTACGTACGTACGTCCCACGTACGTACGTACGTACGTATTGAGT".toList) true ≠
    casSearchStrandGrouped (saCas9_watson ("ACGTACGTACGTACGTACGTA".toList))
      (saCas9_crick ("ACGTACGTACGTACGTACGTA".toList)) saCas9_pam.length 21 17 (-3)
      ("ACTCAATACGTACGTACGTACGTACGTCCCACGTACGTACGTACGTACGTATTGAGT".toList) true := by
  decide

/-- C7 amended: the result list comes from one left-to-right scan over all
offsets — at each matching offset the watson coordinate is emitted if the
forward pattern matches there, otherwise the crick coordinate — so
coordinates appear interleaved in increasing match-offset order (the offset
list is strictly increasing), not grouped by strand. -/
theorem C7_single_scan (wPat cPat : List Char) (pamLen size : Nat) (fst5 fst3 : Int)
    (dna : List Char) (linear : Bool) :
    casSearch wPat cPat pamLen size fst5 fst3 dna linear =
      ((List.range ((casScanned dna size linear).length + 1)).filter
        (fun i => lookAt ((parseGroups wPat).getD []) (casScanned dna size linear) i ||
          lookAt ((parseGroups cPat).getD []) (casScanned dna size linear) i)).map
        (fun i => if lookAt ((parseGroups wPat).getD []) (casScanned dna size linear) i
          then (i : Int) + 1 + fst5 else (i : Int) + (pamLen : Int) + 1 - fst3) ∧
    List.Pairwise (· < ·)
      ((List.range ((casScanned dna size linear).length + 1)).filter
        (fun i => lookAt ((parseGroups wPat).getD []) (casScanned dna size linear) i ||
          lookAt ((parseGroups cPat).getD []) (casScanned dna size linear) i)) :=
  ⟨filterMap_two_way _ _ _ _ _, (List.pairwise_lt_range _).filter _⟩

/-- C8 counterexample: a USER crick-strand match at offset 0 is reported at
coordinate 12 (= match end + fst5 − 1), not at offset + fst5 = 7 as the
uniform-offset claim predicts. -/
theorem C8_counterexample :
    user_search ("AAAAAA".toList) ("UAAAAA".toList) true ≠
      user_search_claimed ("AAAAAA".toList) ("UAAAAA".toList) true := by
  decide

/-- C8 amended: both strands are scanned independently with the fixed
pattern and its reverse orientation, but the offsets differ per strand:
watson matches are reported at `start + fst5`, crick matches at
`end + fst5 - 1 = start + size + fst5 - 1`. -/
theorem C8_offsets (watson crick : List Char) (linear : Bool) :
    user_search watson crick linear =
      ((finditerStarts userFwdGs watson).map (fun (i : Nat) => (i : Int) + user_fst5)) ++
        ((finditerStarts userRevGs crick).map
          (fun (i : Nat) => (i : Int) + (user_size : Int) + user_fst5 - 1)) := by
  unfold user_search
  congr 1

/-- C9: extracting protospacers from the guide construct `p ++ scaffold`
(for any 20-character protospacer over ACGT and the cas9 parameters)
returns exactly `[p]`; and in general the extractor lists all
forward-strand scaffold-anchored hits first, then all reverse-strand hits
(each reverse-complemented), in scan order. -/
theorem C9_roundtrip (p : List Char) (hlen : p.length = 20) (hbase : ∀ c ∈ p, isBase c) :
    protospacer_extract (p ++ cas9_scaffold) 20 cas9_scaffold = [p] ∧
      ∀ (g : List Char) (size : Nat) (scaf : List Char),
        protospacer_extract g size scaf =
          psWatsonHits (g.map pyUpper) size scaf ++ psCrickHits (g.map pyUpper) size scaf := by
  refine ⟨?_, fun g size scaf => rfl⟩
  have hsl : cas9_scaffold.length = 34 := by decide
  have hup : (p ++ cas9_scaffold).map pyUpper = p ++ cas9_scaffold := by
    rw [List.map_append, mapUpper_base hbase]
    have hscafup : cas9_scaffold.map pyUpper = cas9_scaffold := by decide
    rw [hscafup]
  have hglen : (p ++ cas9_scaffold).length = 54 := by
    rw [List.length_append, hlen, hsl]
  unfold protospacer_extract
  rw [hup]
  have hW0 : psMatchW (p ++ cas9_scaffold) 20 cas9_scaffold 0 = true := by
    unfold psMatchW
    rw [List.drop_zero]
    have h2 : ((p ++ cas9_scaffold).take 20).all (fun c => decide (c ≠ '\n')) = true := by
      rw [List.take_left' hlen, List.all_eq_true]
      intro c hc
      exact decide_eq_true (isBase_facts (hbase c hc)).2.2.2.2.1
    have h3 : ((p ++ cas9_scaffold).drop (0 + 20)).take cas9_scaffold.length = cas9_scaffold := by
      rw [Nat.zero_add, List.drop_left' hlen, List.take_length]
    have h1 : (0 + 20 + cas9_scaffold.length ≤ (p ++ cas9_scaffold).length) := by
      rw [hglen, hsl]
    rw [h2, h3, decide_eq_true h1]
    simp
  have hWrest : ∀ j, 1 ≤ j → psMatchW (p ++ cas9_scaffold) 20 cas9_scaffold j = false := by
    intro j hj
    unfold psMatchW
    have hfalse : ¬ (j + 20 + cas9_scaffold.length ≤ (p ++ cas9_scaffold).length) := by
      rw [hglen, hsl]
      omega
    rw [decide_eq_false hfalse]
    simp
  have hC : ∀ j, 0 ≤ j → psMatchC (p ++ cas9_scaffold) 20 (rc cas9_scaffold) j = false := by
    intro j _
    unfold psMatchC
    by_cases hj : j = 0
    · subst hj
      have hne : ¬ ((p ++ cas9_scaffold).drop 0).take (rc cas9_scaffold).length =
          rc cas9_scaffold := by
        rw [List.drop_zero]
        intro hcontra
        have h14 := congrArg (List.drop 20) hcontra
        rw [List.drop_take, List.drop_left' hlen] at h14
        rw [show (rc cas9_scaffold).length = 34 from by decide] at h14
        have hdiff : cas9_scaffold.take (34 - 20) ≠ (rc cas9_scaffold).drop 20 := by decide
        exact hdiff h14
      rw [decide_eq_false hne]
      simp
    · have hfalse : ¬ (j + (rc cas9_scaffold).length + 20 ≤ (p ++ cas9_scaffold).length) := by
        rw [hglen, show (rc cas9_scaffold).length = 34 from by decide]
        omega
      rw [decide_eq_false hfalse]
      simp
  unfold psWatsonHits psCrickHits
  rw [scanNOP_only_first _ _ _ _ hW0 hWrest (by omega),
    scanNOP_stop _ _ _ _ _ (fun j hj => hC j (by omega))]
  simp only [List.map_cons, List.map_nil, List.append_nil]
  rw [List.drop_zero, List.take_left' hlen]

/-- Witness for C9 at a concrete 20-mer protospacer. -/
theorem C9_roundtrip_witness :
    (("ACGTACGTACGTACGTACGT".toList).length = 20 ∧
      ∀ c ∈ ("ACGTACGTACGTACGTACGT".toList), isBase c) ∧
    (protospacer_extract ("ACGTACGTACGTACGTACGT".toList ++ cas9_scaffold) 20 cas9_scaffold =
        ["ACGTACGTACGTACGTACGT".toList] ∧
      ∀ (g : List Char) (size : Nat) (scaf : List Char),
        protospacer_extract g size scaf =
          psWatsonHits (g.map pyUpper) size scaf ++ psCrickHits (g.map pyUpper) size scaf) :=
  ⟨⟨by decide, by decide⟩,
    C9_roundtrip ("ACGTACGTACGTACGTACGT".toList) (by decide) (by decide)⟩

/-- C10: `USER.search` never reads its `linear` flag, so the result is
identical for linear and circular calls on every input. -/
theorem C10_linear_ignored (watson crick : List Char) (l1 l2 : Bool) :
    user_search watson crick l1 = user_search watson crick l2 := rfl

end Pydna
